import Mathlib

/-!
Verification of `analysis/webservice/NexusHandler.py` and
`analysis/webservice/metrics/MetricsRecord.py` from incubator-sdap-nexus.

The embedding covers:
* the Spark job-slot pool (`SparkHandler.SparkJobContext`, `SparkHandler.set_config`,
  and the `with_spark_job_context` wrapper installed around `calc`);
* the time-series merge (`NexusHandler._mergeDataSeries`, `_resultsMapToList`,
  `_mergeResults`);
* the metrics record (`MetricsRecord.__init__`, `record_metrics`, `print_metrics`).

Python lists are Lean `List`s; `list.pop()` removes and returns the LAST element;
Python dicts keyed with unique keys are association lists; exceptions are `Except`.
-/

namespace Nexus

/-! ## Job slot pool: `SparkHandler.SparkJobContext` -/

/-- The exception raised by `SparkJobContext.__enter__` when the job stack is
empty (`SparkHandler.SparkJobContext.MaxConcurrentJobsReached`). -/
inductive JobErr where
  | maxConcurrentJobsReached
deriving DecidableEq, Repr

/-- `SparkJobContext.__enter__`: `self.job_name = self.spark_job_stack.pop()`.
Python `list.pop()` removes and returns the last element; on an empty list it
raises `IndexError`, which `__enter__` converts to `MaxConcurrentJobsReached`.
Returns the result together with the stack after the call (unchanged when the
pop fails). -/
def contextEnter (stack : List String) : Except JobErr String × List String :=
  match stack.getLast? with
  | none => (Except.error JobErr.maxConcurrentJobsReached, stack)
  | some name => (Except.ok name, stack.dropLast)

/-- `SparkJobContext.__exit__`: `if self.job_name is not None:
self.spark_job_stack.append(self.job_name)`. -/
def contextExit (jobName : Option String) (stack : List String) : List String :=
  match jobName with
  | none => stack
  | some n => stack ++ [n]

/-- The error surfaced by the `calc` wrapper: either the
`NexusProcessingException(code=503, reason=...)` raised on
`MaxConcurrentJobsReached`, or an error raised by the wrapped `calc` itself
(carried unchanged). -/
inductive WrappedError (ε : Type) where
  | nexusProcessing (code : Nat) (reason : String)
  | calcError (e : ε)
deriving DecidableEq, Repr

/-- `with_spark_job_context(...).wrapped`: enter the `SparkJobContext`
(acquiring a slot), run `calc`, and by `with`-statement semantics run
`__exit__` (releasing the slot) whether `calc` returns or raises; a
`MaxConcurrentJobsReached` from the acquisition is converted to a 503
`NexusProcessingException`.  The Spark-context property setters between the
acquire and the `calc` call only touch the Spark scheduler and are modelled
as no-ops. Returns the wrapper's outcome and the job stack after the call. -/
def runWrappedCalc {ε α : Type} (stack : List String) (body : String → Except ε α) :
    Except (WrappedError ε) α × List String :=
  match contextEnter stack with
  | (Except.error _, s') =>
      (Except.error (WrappedError.nexusProcessing 503
        "Max concurrent requests reached. Please try again later."), s')
  | (Except.ok name, s') =>
      match body name with
      | Except.ok a => (Except.ok a, contextExit (some name) s')
      | Except.error e => (Except.error (WrappedError.calcError e), contextExit (some name) s')

/-- The slot list built by `SparkHandler.set_config`:
`["Job %s" % x for x in xrange(1, max_concurrent_jobs + 1)]`. -/
def jobStack (n : Nat) : List String :=
  (List.range' 1 n).map (fun x => "Job " ++ toString x)

/-- `SparkHandler.__init__`: `self.spark_job_stack = []` — a freshly
constructed (unconfigured) handler has an empty job stack. -/
def sparkInitJobStack : List String := []

/-- `SparkHandler.set_config`: `max_concurrent_jobs` is read from the `spark`
section's `maxconcurrentjobs` option when present, else defaults to 10; the
stack is reset to `["Job 1", ..., "Job N"]`.  The configuration lookup is
modelled as an `Option Nat`. -/
def setConfigStack (maxConcurrentJobs : Option Nat) : List String :=
  jobStack (maxConcurrentJobs.getD 10)

/-- Iterated acquisition: perform `n` successive `__enter__` calls, failing if
any of them raises `MaxConcurrentJobsReached`; returns the remaining stack. -/
def acquireMany (stack : List String) : Nat → Option (List String)
  | 0 => some stack
  | n + 1 =>
      match contextEnter stack with
      | (Except.error _, _) => none
      | (Except.ok _, s') => acquireMany s' n

/-- Pool state with ghost bookkeeping: `free` is `spark_job_stack`; `held`
counts the slots currently handed out to `SparkJobContext`s (implicit in the
Python code, where a held slot lives in a context's `job_name`). -/
structure PoolState where
  free : List String
  held : Nat
deriving DecidableEq, Repr

/-- Acquire on the ghost-annotated pool: `__enter__` moves the top slot from
`free` to the held count; on an empty pool it fails and leaves the state
unchanged. -/
def poolAcquire (p : PoolState) : Except JobErr String × PoolState :=
  match p.free.getLast? with
  | none => (Except.error JobErr.maxConcurrentJobsReached, p)
  | some name => (Except.ok name, ⟨p.free.dropLast, p.held + 1⟩)

/-- Release on the ghost-annotated pool: `__exit__` appends the held slot back
onto `free`. -/
def poolRelease (p : PoolState) (name : String) : PoolState :=
  ⟨p.free ++ [name], p.held - 1⟩

/-! ## Time-series merge: `NexusHandler._mergeResults` and helpers -/

/-- One entry of a result series: a dict with a `time` key, an opaque payload
(the remaining keys, e.g. `mean` — carried but never inspected by the merge),
and the `ds` tag written by `_mergeDataSeries` (`none` before tagging). -/
structure Entry (α : Type) where
  time : Int
  payload : α
  ds : Option Nat := none
deriving DecidableEq, Repr

/-- `entry["ds"] = dataNum`. -/
def tagEntry {α : Type} (dataNum : Nat) (e : Entry α) : Entry α :=
  { e with ds := some dataNum }

/-- Drop the `ds` tag (used only to state `ds`-insensitive properties). -/
def eraseDs {α : Type} (e : Entry α) : Entry α :=
  { e with ds := none }

/-- The `resultsMap` dict: keys are times, values the per-time entry groups.
`resultsMap[t].append(e)`, creating `resultsMap[t] = []` first when the key is
absent (new keys go to the end, matching insertion order). -/
def mapInsert {α : Type} (m : List (Int × List (Entry α))) (t : Int) (e : Entry α) :
    List (Int × List (Entry α)) :=
  match m with
  | [] => [(t, [e])]
  | (k, v) :: rest =>
      if k = t then (k, v ++ [e]) :: rest else (k, v) :: mapInsert rest t e

/-- `NexusHandler._mergeDataSeries`: for each entry of `resultsData`, tag it
with `ds = dataNum` and append it to `resultsMap[entry["time"]]`. -/
def mergeDataSeries {α : Type} (resultsData : List (Entry α)) (dataNum : Nat)
    (resultsMap : List (Int × List (Entry α))) : List (Int × List (Entry α)) :=
  resultsData.foldl (fun m e => mapInsert m e.time (tagEntry dataNum e)) resultsMap

/-- The sort key of `_resultsMapToList`: `entry[0]["time"]`, the time of the
first entry of a group (groups are nonempty by construction; the `[]` case is
unreachable and returns a dummy value). -/
def firstTime {α : Type} (g : List (Entry α)) : Int :=
  match g with
  | [] => 0
  | e :: _ => e.time

/-- Group ordering used by `_resultsMapToList`'s `sorted(..., key=lambda
entry: entry[0]["time"])`. -/
def groupLe {α : Type} (g₁ g₂ : List (Entry α)) : Prop :=
  firstTime g₁ ≤ firstTime g₂

instance {α : Type} : DecidableRel (groupLe (α := α)) :=
  fun g₁ g₂ => inferInstanceAs (Decidable (firstTime g₁ ≤ firstTime g₂))

/-- `NexusHandler._resultsMapToList`: collect the dict's values and sort them
ascending by the time of each group's first entry.  (Python's `sorted` and
this sort agree because the sort keys — the distinct group times — make the
sorted permutation unique.) -/
def resultsMapToList {α : Type} (resultsMap : List (Int × List (Entry α))) :
    List (List (Entry α)) :=
  List.insertionSort groupLe (resultsMap.map Prod.snd)

/-- The loop of `_mergeResults`: `for i in range(0, len(resultsRaw)):
self._mergeDataSeries(resultsRaw[i][0], i, resultsMap)`, with `i` starting
from `start` and the entry lists already extracted. -/
def buildMapAux {α : Type} (rawData : List (List (Entry α))) (start : Nat)
    (m : List (Int × List (Entry α))) : List (Int × List (Entry α)) :=
  match rawData with
  | [] => m
  | d :: rest => buildMapAux rest (start + 1) (mergeDataSeries d start m)

/-- `_mergeResults` on the extracted entry lists (series `i`'s entries are
`rawData[i]`): build the map, then sort its values. -/
def mergeResultsData {α : Type} (rawData : List (List (Entry α))) :
    List (List (Entry α)) :=
  resultsMapToList (buildMapAux rawData 0 [])

/-- The extraction performed by `_mergeResults`'s loop: `resultsData =
resultsSeries[0]` for each container; indexing an empty container raises
`IndexError`, modelled as `none` for the whole call. -/
def headsOf {α : Type} (resultsRaw : List (List (List (Entry α)))) :
    Option (List (List (Entry α))) :=
  match resultsRaw with
  | [] => some []
  | c :: rest =>
      match c.head?, headsOf rest with
      | some d, some ds => some (d :: ds)
      | _, _ => none

/-- `NexusHandler._mergeResults`: each element of `resultsRaw` is a container
sequence whose component 0 is the entry list; the extracted entry lists are
merged by index. -/
def mergeResults {α : Type} (resultsRaw : List (List (List (Entry α)))) :
    Option (List (List (Entry α))) :=
  (headsOf resultsRaw).map mergeResultsData

/-- The stream of tagged entries processed by `_mergeResults`'s loop, starting
at series index `start`: series `j` contributes its entries tagged with
`ds = start + j`, in order. -/
def taggedStreamAux {α : Type} (rawData : List (List (Entry α))) (start : Nat) :
    List (Entry α) :=
  match rawData with
  | [] => []
  | d :: rest => d.map (tagEntry start) ++ taggedStreamAux rest (start + 1)

/-- All entries of the stream `s` whose time is `t`, in stream order. -/
def entriesAt {α : Type} (s : List (Entry α)) (t : Int) : List (Entry α) :=
  s.filter (fun e => decide (e.time = t))

/-- The distinct times of the stream `s`, sorted ascending. -/
def sortedTimes {α : Type} (s : List (Entry α)) : List Int :=
  List.insertionSort (· ≤ ·) (s.map Entry.time).dedup

/-- The well-formedness relation between the `resultsMap` under construction
and the prefix `s` of the tagged stream already processed: keys are distinct,
a time is a key exactly when some processed entry has it, and each key's group
holds exactly the processed entries at that time, in order. -/
def mapOk {α : Type} (m : List (Int × List (Entry α))) (s : List (Entry α)) : Prop :=
  (m.map Prod.fst).Nodup ∧
  (∀ t : Int, t ∈ m.map Prod.fst ↔ t ∈ s.map Entry.time) ∧
  (∀ kv ∈ m, kv.2 = entriesAt s kv.1)

/-! ## Metrics: `MetricsRecord` -/

/-- Modelled from the spec: `NumberMetricsField` (its module
`webservice/metrics/MetricsField.py` is not under `src/`) — a metrics field
with a key, a description and a numeric value; `add(addend)` increments the
value by the addend. -/
structure NumberMetricsField where
  key : String
  description : String
  value : Int
deriving DecidableEq, Repr

/-- Modelled from the spec: `NumberMetricsField.add`. -/
def NumberMetricsField.add (f : NumberMetricsField) (addend : Int) : NumberMetricsField :=
  { f with value := f.value + addend }

/-- `OrderedDict` assignment `d[k] = v`: an existing key keeps its position
and has its value replaced; a new key is appended at the end. -/
def odInsert (m : List (String × NumberMetricsField)) (k : String)
    (v : NumberMetricsField) : List (String × NumberMetricsField) :=
  match m with
  | [] => [(k, v)]
  | (k', v') :: rest =>
      if k' = k then (k', v) :: rest else (k', v') :: odInsert rest k v

/-- `OrderedDict` lookup `d[k]` / `k in d` (first — and, keys being unique,
only — binding of `k`). -/
def odLookup (m : List (String × NumberMetricsField)) (k : String) :
    Option NumberMetricsField :=
  match m with
  | [] => none
  | (k', v) :: rest => if k' = k then some v else odLookup rest k

/-- In-place mutation `d[k].add(...)` of the field object bound to `k`. -/
def odUpdate (m : List (String × NumberMetricsField)) (k : String)
    (g : NumberMetricsField → NumberMetricsField) : List (String × NumberMetricsField) :=
  m.map (fun kv => if kv.1 = k then (kv.1, g kv.2) else kv)

/-- `MetricsRecord.__init__`: `self._fields = OrderedDict(); for field in
fields: self._fields[field.key] = field`. -/
def mrInit (fields : List NumberMetricsField) : List (String × NumberMetricsField) :=
  fields.foldl (fun m f => odInsert m f.key f) []

/-- `MetricsRecord.record_metrics(**kwargs)`: for each named amount, if the
name is a field key, `add` the amount to that field; otherwise do nothing. -/
def recordMetrics (m : List (String × NumberMetricsField))
    (kwargs : List (String × Int)) : List (String × NumberMetricsField) :=
  kwargs.foldl
    (fun acc kv =>
      if kv.1 ∈ acc.map Prod.fst then odUpdate acc kv.1 (fun f => f.add kv.2) else acc)
    m

/-- The lines logged by `MetricsRecord.print_metrics`: one
`"{description}: {value}"` line per entry of `self._fields.values()`, in the
dict's iteration order. -/
def printLines (m : List (String × NumberMetricsField)) : List String :=
  (m.map Prod.snd).map (fun f => f.description ++ ": " ++ toString f.value)

/-- The last field of `fields` carrying key `k`, if any (used to state the
last-one-wins behaviour of `MetricsRecord.__init__`). -/
def lastWithKey (fields : List NumberMetricsField) (k : String) :
    Option NumberMetricsField :=
  (fields.filter (fun f => decide (f.key = k))).getLast?

/-- The distinct elements of `ks` in order of first occurrence (the key
iteration order of an `OrderedDict` filled from `ks`). -/
def firstKeys (ks : List String) : List String :=
  ks.foldl (fun acc k => if k ∈ acc then acc else acc ++ [k]) []

/-! ## Lemmas about the job slot pool -/

theorem contextEnter_concat (s : List String) (x : String) :
    contextEnter (s ++ [x]) = (Except.ok x, s) := by
  simp [contextEnter, List.getLast?_concat, List.dropLast_concat]

theorem contextEnter_nil :
    contextEnter [] = (Except.error JobErr.maxConcurrentJobsReached, []) := rfl

theorem runWrappedCalc_stack {ε α : Type} (s : List String) (body : String → Except ε α) :
    (runWrappedCalc s body).2 = s := by
  induction s using List.reverseRecOn with
  | nil => cases body "" <;> rfl
  | append_singleton l x _ =>
      unfold runWrappedCalc
      rw [contextEnter_concat]
      cases h : body x <;> simp [contextExit, h]

theorem acquireMany_length (s : List String) :
    acquireMany s s.length = some [] := by
  induction s using List.reverseRecOn with
  | nil => rfl
  | append_singleton l x ih =>
      simp only [List.length_append, List.length_singleton]
      unfold acquireMany
      rw [contextEnter_concat]
      exact ih

theorem acquireMany_length_succ (s : List String) :
    acquireMany s (s.length + 1) = none := by
  induction s using List.reverseRecOn with
  | nil => rfl
  | append_singleton l x ih =>
      simp only [List.length_append, List.length_singleton]
      unfold acquireMany
      rw [contextEnter_concat]
      exact ih

theorem jobStack_length (n : Nat) : (jobStack n).length = n := by
  simp [jobStack, List.length_range']

theorem jobStack_succ (n : Nat) :
    jobStack (n + 1) = jobStack n ++ ["Job " ++ toString (n + 1)] := by
  unfold jobStack
  rw [List.range'_concat]
  simp [Nat.add_comm]

/-- C1: acquisition (`SparkJobContext.__enter__`) is non-blocking: on an empty
pool it immediately fails with `MaxConcurrentJobsReached` leaving the pool
unchanged; on a nonempty pool it removes and returns the top slot; from any
pool of `k` slots, `k` successive acquires all succeed (ending on an empty
pool) and the `(k+1)`th fails; the configured pool `jobStack n` has exactly
`n` slots. -/
theorem contextEnter_acquire_spec (s : List String) :
    (s = [] → contextEnter s = (Except.error JobErr.maxConcurrentJobsReached, s)) ∧
    (∀ l x, s = l ++ [x] → contextEnter s = (Except.ok x, l)) ∧
    acquireMany s s.length = some [] ∧
    acquireMany s (s.length + 1) = none ∧
    (∀ n : Nat, (jobStack n).length = n) := by
  refine ⟨?_, ?_, acquireMany_length s, acquireMany_length_succ s, jobStack_length⟩
  · rintro rfl
    exact contextEnter_nil
  · rintro l x rfl
    exact contextEnter_concat l x

/-- Witness for C1 at the freshly configured two-slot pool. -/
theorem contextEnter_acquire_spec_witness :
    contextEnter (jobStack 2) = (Except.ok "Job 2", ["Job 1"]) ∧
    acquireMany (jobStack 2) 2 = some [] ∧
    acquireMany (jobStack 2) 3 = none := by
  obtain ⟨-, h2, h3, h4, -⟩ := contextEnter_acquire_spec (jobStack 2)
  exact ⟨h2 ["Job 1"] "Job 2" (by decide), by exact h3, by exact h4⟩

/-- C2: the slot acquired by the wrapper around `calc` is released on every
exit path: a wrapped invocation restores the free stack exactly (whether the
body returns or raises), hence any sequence of wrapped invocations leaves the
free-slot count at its initial value; and on the ghost-annotated pool both
acquire and release preserve `available + in_use`. -/
theorem wrapped_calc_releases_spec {ε α : Type} (s : List String)
    (body : String → Except ε α) :
    (runWrappedCalc s body).2 = s ∧
    (∀ bodies : List (String → Except ε α),
      bodies.foldl (fun st b => (runWrappedCalc st b).2) s = s) ∧
    (∀ p p' : PoolState, ∀ name, poolAcquire p = (Except.ok name, p') →
      p'.free.length + p'.held = p.free.length + p.held) ∧
    (∀ p : PoolState, ∀ name, 1 ≤ p.held →
      (poolRelease p name).free.length + (poolRelease p name).held =
        p.free.length + p.held) := by
  refine ⟨runWrappedCalc_stack s body, ?_, ?_, ?_⟩
  · intro bodies
    induction bodies with
    | nil => rfl
    | cons b rest ih => simp [runWrappedCalc_stack, ih]
  · intro p p' name h
    cases hp : p.free with
    | nil => simp [poolAcquire, hp] at h
    | cons y ys =>
        have hne : p.free ≠ [] := by simp [hp]
        rw [poolAcquire] at h
        rw [List.getLast?_eq_getLast p.free hne] at h
        simp only [Except.ok.injEq, Prod.mk.injEq] at h
        obtain ⟨-, rfl⟩ := h
        have hlen : p.free.length = ys.length + 1 := by simp [hp]
        simp [List.length_dropLast, hlen]
        omega
  · intro p name h
    simp [poolRelease]
    omega

/-- Witness for C2: a one-slot pool with a raising body restores the stack,
and acquire/release preserve the slot-count invariant at a concrete state. -/
theorem wrapped_calc_releases_spec_witness :
    (runWrappedCalc ["Job 1"] (fun _ => (Except.error 7 : Except Nat Nat))).2 = ["Job 1"] ∧
    ((⟨[], 1⟩ : PoolState).free.length + (⟨[], 1⟩ : PoolState).held =
      (⟨["Job 1"], 0⟩ : PoolState).free.length + (⟨["Job 1"], 0⟩ : PoolState).held) ∧
    ((poolRelease ⟨[], 1⟩ "Job 1").free.length + (poolRelease ⟨[], 1⟩ "Job 1").held =
      (⟨[], 1⟩ : PoolState).free.length + (⟨[], 1⟩ : PoolState).held) := by
  obtain ⟨h1, -, h3, h4⟩ :=
    wrapped_calc_releases_spec ["Job 1"] (fun _ => (Except.error 7 : Except Nat Nat))
  exact ⟨h1, h3 ⟨["Job 1"], 0⟩ ⟨[], 1⟩ "Job 1" rfl, h4 ⟨[], 1⟩ "Job 1" (by decide)⟩

/-- C3: on an empty pool the wrapper fails with exactly the 503
`NexusProcessingException` ("Max concurrent requests reached. Please try again
later.") without running the body (its result does not depend on the body);
otherwise it propagates the body's return value or raised error unchanged. -/
theorem wrapped_calc_propagation_spec {ε α : Type} (s : List String)
    (body : String → Except ε α) :
    (s = [] →
      (∀ body2 : String → Except ε α, runWrappedCalc s body = runWrappedCalc s body2) ∧
      runWrappedCalc s body =
        (Except.error (WrappedError.nexusProcessing 503
          "Max concurrent requests reached. Please try again later."), s)) ∧
    (∀ l x, s = l ++ [x] →
      (∀ a, body x = Except.ok a → runWrappedCalc s body = (Except.ok a, s)) ∧
      (∀ e, body x = Except.error e →
        runWrappedCalc s body = (Except.error (WrappedError.calcError e), s))) := by
  constructor
  · rintro rfl
    exact ⟨fun body2 => rfl, rfl⟩
  · rintro l x rfl
    constructor
    · intro a ha
      unfold runWrappedCalc
      rw [contextEnter_concat]
      simp [ha, contextExit]
    · intro e he
      unfold runWrappedCalc
      rw [contextEnter_concat]
      simp [he, contextExit]

/-- Witness for C3 at a one-slot pool with a returning body, a raising body,
and at the exhausted pool. -/
theorem wrapped_calc_propagation_spec_witness :
    runWrappedCalc [] (fun _ => (Except.ok 1 : Except Nat Nat)) =
      (Except.error (WrappedError.nexusProcessing 503
        "Max concurrent requests reached. Please try again later."), []) ∧
    runWrappedCalc ["Job 1"] (fun _ => (Except.ok 1 : Except Nat Nat)) =
      (Except.ok 1, ["Job 1"]) ∧
    runWrappedCalc ["Job 1"] (fun _ => (Except.error 9 : Except Nat Nat)) =
      (Except.error (WrappedError.calcError 9), ["Job 1"]) := by
  refine ⟨((wrapped_calc_propagation_spec [] (fun _ => (Except.ok 1 : Except Nat Nat))).1
    rfl).2, ?_, ?_⟩
  · exact (((wrapped_calc_propagation_spec ["Job 1"]
      (fun _ => (Except.ok 1 : Except Nat Nat))).2 [] "Job 1" rfl).1 1 rfl)
  · exact (((wrapped_calc_propagation_spec ["Job 1"]
      (fun _ => (Except.error 9 : Except Nat Nat))).2 [] "Job 1" rfl).2 9 rfl)

/-- C5 counterexample: the claim also asserts that an *unconfigured* pool has
10 slots, but `SparkHandler.__init__` sets `spark_job_stack = []`: the
unconfigured pool has 0 slots. -/
theorem setConfig_default_counterexample : ¬ sparkInitJobStack.length = 10 := by
  decide

/-- C5 (amended): `set_config` with `max_concurrent = n` resets the pool to
exactly the `n` named slots `"Job 1"` … `"Job n"`; when the configuration
does not specify a value it defaults to 10 slots; an unconfigured pool
(straight out of `__init__`) is empty. -/
theorem setConfig_spec (n : Nat) :
    setConfigStack (some n) = jobStack n ∧
    (setConfigStack (some n)).length = n ∧
    (∀ i, ∀ h : i < (setConfigStack (some n)).length,
      (setConfigStack (some n)).get ⟨i, h⟩ = "Job " ++ toString (i + 1)) ∧
    setConfigStack none = jobStack 10 ∧
    (setConfigStack none).length = 10 ∧
    sparkInitJobStack = [] := by
  refine ⟨rfl, jobStack_length n, ?_, rfl, jobStack_length 10, rfl⟩
  intro i h
  simp only [setConfigStack, Option.getD, jobStack, List.get_eq_getElem,
    List.getElem_map, List.getElem_range', Nat.one_mul]
  rw [Nat.add_comm]

/-- Witness for C5 at `n = 3`, slot index 1. -/
theorem setConfig_spec_witness :
    setConfigStack (some 3) = jobStack 3 ∧
    (setConfigStack (some 3)).get ⟨1, by decide⟩ = "Job 2" := by
  obtain ⟨h1, -, h3, -⟩ := setConfig_spec 3
  exact ⟨h1, by simpa using h3 1 (by decide)⟩

/-- C9: a released slot goes to the very next acquirer — acquiring right after
`__exit__` returns exactly the slot just released (stack discipline), and on a
freshly configured pool of `n ≥ 1` slots the first acquire deterministically
hands out the highest-numbered slot `"Job n"`. -/
theorem release_then_acquire_spec (s : List String) (name : String) :
    contextEnter (contextExit (some name) s) = (Except.ok name, s) ∧
    (∀ n : Nat, 1 ≤ n →
      contextEnter (jobStack n) = (Except.ok ("Job " ++ toString n), jobStack (n - 1))) := by
  constructor
  · exact contextEnter_concat s name
  · intro n hn
    obtain ⟨m, rfl⟩ := Nat.exists_eq_add_of_le hn
    rw [Nat.add_comm 1 m, jobStack_succ, contextEnter_concat]
    simp

/-- Witness for C9: release `"Job 1"` onto an empty pool and re-acquire it;
first acquire on the fresh two-slot pool returns `"Job 2"`. -/
theorem release_then_acquire_spec_witness :
    contextEnter (contextExit (some "Job 1") []) = (Except.ok "Job 1", []) ∧
    contextEnter (jobStack 2) = (Except.ok "Job 2", jobStack 1) := by
  obtain ⟨h1, h2⟩ := release_then_acquire_spec [] "Job 1"
  exact ⟨h1, by simpa using h2 2 (by decide)⟩

/-! ## Lemmas about the time-series merge -/

theorem mergeDataSeries_eq_foldl {α : Type} (data : List (Entry α)) (i : Nat)
    (m : List (Int × List (Entry α))) :
    mergeDataSeries data i m =
      (data.map (tagEntry i)).foldl (fun acc e => mapInsert acc e.time e) m := by
  rw [mergeDataSeries, List.foldl_map]
  rfl

theorem buildMapAux_eq_foldl {α : Type} (rawData : List (List (Entry α))) :
    ∀ (start : Nat) (m : List (Int × List (Entry α))),
      buildMapAux rawData start m =
        (taggedStreamAux rawData start).foldl (fun acc e => mapInsert acc e.time e) m := by
  induction rawData with
  | nil => intro start m; rfl
  | cons d rest ih =>
      intro start m
      show buildMapAux rest (start + 1) (mergeDataSeries d start m) =
        (d.map (tagEntry start) ++ taggedStreamAux rest (start + 1)).foldl
          (fun acc e => mapInsert acc e.time e) m
      rw [ih, List.foldl_append, ← mergeDataSeries_eq_foldl]

theorem mapInsert_keys_mem {α : Type} {m : List (Int × List (Entry α))} {t : Int}
    (e : Entry α) (h : t ∈ m.map Prod.fst) :
    (mapInsert m t e).map Prod.fst = m.map Prod.fst := by
  induction m with
  | nil => simp at h
  | cons kv rest ih =>
      obtain ⟨k, v⟩ := kv
      by_cases hk : k = t
      · simp [mapInsert, hk]
      · have ht : t ∈ rest.map Prod.fst := by
          rcases List.mem_cons.1 h with h' | h'
          · exact absurd h'.symm hk
          · exact h'
        simp [mapInsert, hk, ih ht]

theorem mapInsert_keys_not_mem {α : Type} {m : List (Int × List (Entry α))} {t : Int}
    (e : Entry α) (h : t ∉ m.map Prod.fst) :
    (mapInsert m t e).map Prod.fst = m.map Prod.fst ++ [t] := by
  induction m with
  | nil => simp [mapInsert]
  | cons kv rest ih =>
      obtain ⟨k, v⟩ := kv
      have hk : k ≠ t := fun hh => h (by simp [hh])
      have ht : t ∉ rest.map Prod.fst := fun hh => h (by simp [hh])
      simp [mapInsert, hk, ih ht]

theorem mapInsert_mem_nodup {α : Type} {m : List (Int × List (Entry α))}
    (hnd : (m.map Prod.fst).Nodup) {t : Int} {e : Entry α}
    {kv : Int × List (Entry α)} (hkv : kv ∈ mapInsert m t e) :
    (kv ∈ m ∧ kv.1 ≠ t) ∨
    (kv.1 = t ∧ ((t ∉ m.map Prod.fst ∧ kv.2 = [e]) ∨
      ∃ v, (t, v) ∈ m ∧ kv.2 = v ++ [e])) := by
  induction m with
  | nil =>
      simp only [mapInsert, List.mem_singleton] at hkv
      subst hkv
      exact Or.inr ⟨rfl, Or.inl ⟨by simp, rfl⟩⟩
  | cons hd rest ih =>
      obtain ⟨k, v⟩ := hd
      simp only [List.map_cons, List.nodup_cons] at hnd
      obtain ⟨hknin, hnd'⟩ := hnd
      by_cases hk : k = t
      · subst hk
        simp only [mapInsert, if_pos rfl] at hkv
        rcases List.mem_cons.1 hkv with h | h
        · exact Or.inr ⟨by simp [h], Or.inr ⟨v, List.mem_cons_self _ _, by simp [h]⟩⟩
        · have hne : kv.1 ≠ k := fun hh => hknin (hh ▸ List.mem_map_of_mem Prod.fst h)
          exact Or.inl ⟨List.mem_cons_of_mem _ h, hne⟩
      · simp only [mapInsert, if_neg hk] at hkv
        rcases List.mem_cons.1 hkv with h | h
        · exact Or.inl ⟨by simp [h], by simp [h, hk]⟩
        · rcases ih hnd' h with ⟨hm, hne⟩ | ⟨heq, hrest⟩
          · exact Or.inl ⟨List.mem_cons_of_mem _ hm, hne⟩
          · refine Or.inr ⟨heq, ?_⟩
            rcases hrest with ⟨hnin, he⟩ | ⟨v', hv', he⟩
            · exact Or.inl ⟨by simp [Ne.symm hk, hnin], he⟩
            · exact Or.inr ⟨v', List.mem_cons_of_mem _ hv', he⟩

theorem mem_entriesAt {α : Type} {s : List (Entry α)} {t : Int} {e : Entry α} :
    e ∈ entriesAt s t ↔ e ∈ s ∧ e.time = t := by
  simp [entriesAt]

theorem entriesAt_concat {α : Type} (s : List (Entry α)) (e : Entry α) (t : Int) :
    entriesAt (s ++ [e]) t = entriesAt s t ++ if e.time = t then [e] else [] := by
  rw [entriesAt, List.filter_append]
  congr 1
  by_cases h : e.time = t <;> simp [entriesAt, List.filter_singleton, h]

theorem entriesAt_eq_nil {α : Type} {s : List (Entry α)} {t : Int}
    (h : t ∉ s.map Entry.time) : entriesAt s t = [] := by
  rw [entriesAt, List.filter_eq_nil_iff]
  intro e he
  simp only [decide_eq_true_eq]
  exact fun hh => h (List.mem_map.2 ⟨e, he, hh⟩)

theorem firstTime_entriesAt {α : Type} {s : List (Entry α)} {t : Int}
    (h : t ∈ s.map Entry.time) : firstTime (entriesAt s t) = t := by
  cases hg : entriesAt s t with
  | nil =>
      obtain ⟨e, he, het⟩ := List.mem_map.1 h
      have : e ∈ entriesAt s t := mem_entriesAt.2 ⟨he, het⟩
      rw [hg] at this
      cases this
  | cons e g =>
      have he : e ∈ entriesAt s t := hg ▸ List.mem_cons_self _ _
      have := (mem_entriesAt.1 he).2
      simp [firstTime, this]

theorem mapOk_insert {α : Type} {m : List (Int × List (Entry α))} {s : List (Entry α)}
    (h : mapOk m s) (e : Entry α) : mapOk (mapInsert m e.time e) (s ++ [e]) := by
  obtain ⟨hnd, hmem, hval⟩ := h
  refine ⟨?_, ?_, ?_⟩
  · by_cases hc : e.time ∈ m.map Prod.fst
    · rw [mapInsert_keys_mem e hc]; exact hnd
    · rw [mapInsert_keys_not_mem e hc]
      simp [List.nodup_append, hnd, List.disjoint_singleton, hc]
  · intro t
    have hr : t ∈ (s ++ [e]).map Entry.time ↔ t ∈ s.map Entry.time ∨ t = e.time := by
      simp [eq_comm]
    by_cases hc : e.time ∈ m.map Prod.fst
    · rw [mapInsert_keys_mem e hc, hr, hmem t]
      constructor
      · exact Or.inl
      · rintro (h' | rfl)
        · exact h'
        · exact (hmem _).1 hc
    · rw [mapInsert_keys_not_mem e hc, hr]
      simp only [List.mem_append, List.mem_singleton]
      rw [hmem t]
  · intro kv hkv
    rcases mapInsert_mem_nodup hnd hkv with ⟨hm, hne⟩ | ⟨heq, hrest⟩
    · rw [hval kv hm, entriesAt_concat, if_neg (fun hh => hne hh.symm), List.append_nil]
    · rcases hrest with ⟨hnin, hkv2⟩ | ⟨v, hvm, hkv2⟩
      · have hs : e.time ∉ s.map Entry.time := fun hx => hnin ((hmem _).2 hx)
        rw [hkv2, heq, entriesAt_concat, entriesAt_eq_nil hs, if_pos rfl, List.nil_append]
      · have hv := hval (e.time, v) hvm
        rw [hkv2, heq, entriesAt_concat, if_pos rfl, ← hv]

theorem mapOk_foldl {α : Type} (s : List (Entry α)) :
    ∀ (m : List (Int × List (Entry α))) (p : List (Entry α)), mapOk m p →
      mapOk (s.foldl (fun acc e => mapInsert acc e.time e) m) (p ++ s) := by
  induction s with
  | nil => intro m p h; simpa using h
  | cons e s' ih =>
      intro m p h
      rw [List.foldl_cons, List.append_cons]
      exact ih _ _ (mapOk_insert h e)

theorem mapOk_buildMap {α : Type} (raw : List (List (Entry α))) :
    mapOk (buildMapAux raw 0 []) (taggedStreamAux raw 0) := by
  rw [buildMapAux_eq_foldl]
  have h0 : mapOk ([] : List (Int × List (Entry α))) [] := ⟨List.nodup_nil, by simp, by simp⟩
  simpa using mapOk_foldl (taggedStreamAux raw 0) [] [] h0

instance {α : Type} : IsTotal (List (Entry α)) groupLe :=
  ⟨fun a b => Int.le_total (firstTime a) (firstTime b)⟩

instance {α : Type} : IsTrans (List (Entry α)) groupLe :=
  ⟨fun _ _ _ h₁ h₂ => le_trans h₁ h₂⟩

theorem sortedTimes_nodup {α : Type} (s : List (Entry α)) : (sortedTimes s).Nodup :=
  ((List.perm_insertionSort _ _).nodup_iff).2 (List.nodup_dedup _)

theorem sortedTimes_sorted {α : Type} (s : List (Entry α)) :
    List.Sorted (· ≤ ·) (sortedTimes s) :=
  List.sorted_insertionSort _ _

theorem mem_sortedTimes {α : Type} {s : List (Entry α)} {t : Int} :
    t ∈ sortedTimes s ↔ t ∈ s.map Entry.time := by
  rw [sortedTimes, (List.perm_insertionSort _ _).mem_iff, List.mem_dedup]

theorem sortedTimes_pairwise_lt {α : Type} (s : List (Entry α)) :
    (sortedTimes s).Pairwise (· < ·) :=
  ((sortedTimes_sorted s).and (sortedTimes_nodup s)).imp
    (fun h => lt_of_le_of_ne h.1 h.2)

/-- The merge result in canonical form: one group per distinct time of the
tagged stream, each holding exactly the stream's entries at that time in
stream order, listed in ascending time order. -/
theorem mergeResultsData_eq_canonical {α : Type} (raw : List (List (Entry α))) :
    mergeResultsData raw =
      (sortedTimes (taggedStreamAux raw 0)).map (entriesAt (taggedStreamAux raw 0)) := by
  obtain ⟨hnd, hmem, hval⟩ := mapOk_buildMap raw
  have hA : (buildMapAux raw 0 []).map Prod.snd =
      ((buildMapAux raw 0 []).map Prod.fst).map (entriesAt (taggedStreamAux raw 0)) := by
    rw [List.map_map]
    exact List.map_congr_left (fun kv hkv => hval kv hkv)
  have hB : ((buildMapAux raw 0 []).map Prod.fst).Perm
      ((taggedStreamAux raw 0).map Entry.time).dedup :=
    (List.perm_ext_iff_of_nodup hnd (List.nodup_dedup _)).2
      (fun t => by rw [List.mem_dedup]; exact hmem t)
  have hperm : (mergeResultsData raw).Perm
      ((sortedTimes (taggedStreamAux raw 0)).map (entriesAt (taggedStreamAux raw 0))) := by
    have h1 : (mergeResultsData raw).Perm ((buildMapAux raw 0 []).map Prod.snd) :=
      List.perm_insertionSort _ _
    rw [hA] at h1
    have h2 := hB.map (entriesAt (taggedStreamAux raw 0))
    have h3 := (List.perm_insertionSort ((· ≤ ·) : Int → Int → Prop)
      ((taggedStreamAux raw 0).map Entry.time).dedup).map
        (entriesAt (taggedStreamAux raw 0))
    exact (h1.trans h2).trans h3.symm
  have hRlt : ((sortedTimes (taggedStreamAux raw 0)).map
      (entriesAt (taggedStreamAux raw 0))).Pairwise
      (fun g₁ g₂ => firstTime g₁ < firstTime g₂) := by
    rw [List.pairwise_map]
    exact (sortedTimes_pairwise_lt _).imp_of_mem (fun ha hb hlt => by
      rw [firstTime_entriesAt (mem_sortedTimes.1 ha),
        firstTime_entriesAt (mem_sortedTimes.1 hb)]
      exact hlt)
  have hLle : (mergeResultsData raw).Pairwise groupLe :=
    List.sorted_insertionSort _ _
  have hft : (((sortedTimes (taggedStreamAux raw 0)).map
      (entriesAt (taggedStreamAux raw 0))).map firstTime) =
      sortedTimes (taggedStreamAux raw 0) := by
    rw [List.map_map]
    have := List.map_congr_left
      (fun t ht => firstTime_entriesAt (s := taggedStreamAux raw 0)
        (mem_sortedTimes.1 ht))
    rw [show (firstTime ∘ entriesAt (taggedStreamAux raw 0)) =
      (fun t => firstTime (entriesAt (taggedStreamAux raw 0) t)) from rfl]
    rw [this]
    simp
  have hLnodup : ((mergeResultsData raw).map firstTime).Nodup := by
    have hp := hperm.map firstTime
    rw [hft] at hp
    exact hp.nodup_iff.2 (sortedTimes_nodup _)
  have hLlt : (mergeResultsData raw).Pairwise
      (fun g₁ g₂ => firstTime g₁ < firstTime g₂) := by
    have hne : (mergeResultsData raw).Pairwise
        (fun g₁ g₂ => firstTime g₁ ≠ firstTime g₂) := List.pairwise_map.1 hLnodup
    exact (hLle.and hne).imp (fun h => lt_of_le_of_ne h.1 h.2)
  haveI : IsAntisymm (List (Entry α)) (fun g₁ g₂ => firstTime g₁ < firstTime g₂) :=
    ⟨fun a b h1 h2 => absurd (h1.trans h2) (lt_irrefl _)⟩
  exact List.eq_of_perm_of_sorted hperm hLlt hRlt

theorem mergeResultsData_pairwise_lt {α : Type} (raw : List (List (Entry α))) :
    (mergeResultsData raw).Pairwise (fun g₁ g₂ => firstTime g₁ < firstTime g₂) := by
  rw [mergeResultsData_eq_canonical, List.pairwise_map]
  exact (sortedTimes_pairwise_lt _).imp_of_mem (fun ha hb hlt => by
    rw [firstTime_entriesAt (mem_sortedTimes.1 ha),
      firstTime_entriesAt (mem_sortedTimes.1 hb)]
    exact hlt)

theorem mem_taggedStreamAux {α : Type} (raw : List (List (Entry α))) :
    ∀ (start j : Nat) (h : j < raw.length) (e : Entry α),
      e ∈ raw.get ⟨j, h⟩ → tagEntry (start + j) e ∈ taggedStreamAux raw start := by
  induction raw with
  | nil => intro start j h; exact absurd h (Nat.not_lt_zero j)
  | cons d rest ih =>
      intro start j h e he
      cases j with
      | zero =>
          rw [Nat.add_zero]
          exact List.mem_append_left _ (List.mem_map_of_mem _ he)
      | succ j' =>
          have h' : j' < rest.length := Nat.lt_of_succ_lt_succ h
          rw [show start + (j' + 1) = (start + 1) + j' by omega]
          exact List.mem_append_right _ (ih (start + 1) j' h' e he)

/-- C4: in the merge result, every entry of series `j` appears (tagged with
`ds = j`) in some group; all entries of a group share one time; distinct
groups have distinct times; the groups are listed ascending by the time of
their first entry; and an empty input yields an empty result. -/
theorem mergeResults_groups_spec {α : Type} (raw : List (List (Entry α))) :
    (∀ j, ∀ h : j < raw.length, ∀ e ∈ raw.get ⟨j, h⟩,
      ∃ g ∈ mergeResultsData raw, tagEntry j e ∈ g) ∧
    (∀ g ∈ mergeResultsData raw, ∀ e₁ ∈ g, ∀ e₂ ∈ g, e₁.time = e₂.time) ∧
    (mergeResultsData raw).Pairwise (fun g₁ g₂ => firstTime g₁ ≠ firstTime g₂) ∧
    (mergeResultsData raw).Pairwise groupLe ∧
    (raw = [] → mergeResultsData raw = []) := by
  refine ⟨?_, ?_, ?_, ?_, ?_⟩
  · intro j h e he
    have hstream : tagEntry j e ∈ taggedStreamAux raw 0 := by
      have := mem_taggedStreamAux raw 0 j h e he
      rwa [Nat.zero_add] at this
    have ht : e.time ∈ (taggedStreamAux raw 0).map Entry.time :=
      List.mem_map.2 ⟨tagEntry j e, hstream, rfl⟩
    refine ⟨entriesAt (taggedStreamAux raw 0) e.time, ?_, ?_⟩
    · rw [mergeResultsData_eq_canonical]
      exact List.mem_map_of_mem _ (mem_sortedTimes.2 ht)
    · exact mem_entriesAt.2 ⟨hstream, rfl⟩
  · intro g hg e₁ he₁ e₂ he₂
    rw [mergeResultsData_eq_canonical] at hg
    obtain ⟨t, _, rfl⟩ := List.mem_map.1 hg
    rw [(mem_entriesAt.1 he₁).2, (mem_entriesAt.1 he₂).2]
  · exact (mergeResultsData_pairwise_lt raw).imp (fun h => ne_of_lt h)
  · exact (mergeResultsData_pairwise_lt raw).imp (fun h => le_of_lt h)
  · rintro rfl
    rfl

/-- Witness for C4: the spec's example — series A = `[{time:100, mean:1.0}]`,
series B = `[{time:100, mean:2.0}, {time:200, mean:3.0}]` (float payloads
carried opaquely, written 1, 2, 3) merge to
`[[{time:100, ds:0}, {time:100, ds:1}], [{time:200, ds:1}]]`, and entry
`{time:200}` of series 1 lands in a group tagged `ds = 1`. -/
theorem mergeResults_groups_spec_witness :
    mergeResultsData [[⟨100, 1, none⟩], [⟨100, 2, none⟩, ⟨200, 3, none⟩]] =
      ([[⟨100, 1, some 0⟩, ⟨100, 2, some 1⟩], [⟨200, 3, some 1⟩]] :
        List (List (Entry Int))) ∧
    (∃ g ∈ mergeResultsData
        ([[⟨100, 1, none⟩], [⟨100, 2, none⟩, ⟨200, 3, none⟩]] :
          List (List (Entry Int))),
      tagEntry 1 ⟨200, 3, none⟩ ∈ g) :=
  ⟨by decide,
    (mergeResults_groups_spec
      ([[⟨100, 1, none⟩], [⟨100, 2, none⟩, ⟨200, 3, none⟩]] :
        List (List (Entry Int)))).1 1 (by decide) ⟨200, 3, none⟩ (by decide)⟩

theorem entriesAt_append {α : Type} (s₁ s₂ : List (Entry α)) (t : Int) :
    entriesAt (s₁ ++ s₂) t = entriesAt s₁ t ++ entriesAt s₂ t :=
  List.filter_append _ _

theorem map_time_map_tag {α : Type} (l : List (Entry α)) (i : Nat) :
    (l.map (tagEntry i)).map Entry.time = l.map Entry.time := by
  rw [List.map_map]
  rfl

theorem entriesAt_map_tag {α : Type} (l : List (Entry α)) (i : Nat) (t : Int) :
    entriesAt (l.map (tagEntry i)) t = (entriesAt l t).map (tagEntry i) := by
  rw [entriesAt, List.filter_map]
  rfl

theorem map_eraseDs_map_tag {α : Type} (l : List (Entry α)) (i : Nat) :
    (l.map (tagEntry i)).map eraseDs = l.map eraseDs := by
  rw [List.map_map]
  rfl

theorem forall₂_map_of_mem {β γ : Type} {l : List β} {f g : β → γ}
    {R : γ → γ → Prop} (h : ∀ a ∈ l, R (f a) (g a)) :
    List.Forall₂ R (l.map f) (l.map g) := by
  induction l with
  | nil => exact List.Forall₂.nil
  | cons a l' ih =>
      exact List.Forall₂.cons (h a (List.mem_cons_self _ _))
        (ih (fun b hb => h b (List.mem_cons_of_mem _ hb)))

/-- C6: merging `[A, B]` and `[B, A]` produces the same groups position by
position once the `ds` tags (which follow the input order) are erased — each
pair of corresponding groups holds the same entries up to order — and both
results are sorted ascending by the time of each group's first entry. -/
theorem mergeResults_order_independent {α : Type} (A B : List (Entry α)) :
    List.Forall₂ (fun g₁ g₂ => (g₁.map eraseDs).Perm (g₂.map eraseDs))
      (mergeResultsData [A, B]) (mergeResultsData [B, A]) ∧
    (mergeResultsData [A, B]).Pairwise groupLe ∧
    (mergeResultsData [B, A]).Pairwise groupLe := by
  have hs₁ : taggedStreamAux [A, B] 0 = A.map (tagEntry 0) ++ B.map (tagEntry 1) := by
    simp [taggedStreamAux]
  have hs₂ : taggedStreamAux [B, A] 0 = B.map (tagEntry 0) ++ A.map (tagEntry 1) := by
    simp [taggedStreamAux]
  have ht₁ : (taggedStreamAux [A, B] 0).map Entry.time =
      A.map Entry.time ++ B.map Entry.time := by
    rw [hs₁, List.map_append, map_time_map_tag, map_time_map_tag]
  have ht₂ : (taggedStreamAux [B, A] 0).map Entry.time =
      B.map Entry.time ++ A.map Entry.time := by
    rw [hs₂, List.map_append, map_time_map_tag, map_time_map_tag]
  have hst : sortedTimes (taggedStreamAux [A, B] 0) =
      sortedTimes (taggedStreamAux [B, A] 0) := by
    apply List.eq_of_perm_of_sorted ?_ (sortedTimes_sorted _) (sortedTimes_sorted _)
    have hd : ((taggedStreamAux [A, B] 0).map Entry.time).dedup.Perm
        ((taggedStreamAux [B, A] 0).map Entry.time).dedup := by
      rw [List.perm_ext_iff_of_nodup (List.nodup_dedup _) (List.nodup_dedup _)]
      intro t
      rw [List.mem_dedup, List.mem_dedup, ht₁, ht₂]
      simp [or_comm]
    exact ((List.perm_insertionSort _ _).trans hd).trans
      (List.perm_insertionSort _ _).symm
  refine ⟨?_, (mergeResultsData_pairwise_lt _).imp (fun h => le_of_lt h),
    (mergeResultsData_pairwise_lt _).imp (fun h => le_of_lt h)⟩
  rw [mergeResultsData_eq_canonical, mergeResultsData_eq_canonical, ← hst]
  apply forall₂_map_of_mem
  intro t _
  rw [hs₁, hs₂, entriesAt_append, entriesAt_append, entriesAt_map_tag,
    entriesAt_map_tag, entriesAt_map_tag, entriesAt_map_tag, List.map_append,
    List.map_append, map_eraseDs_map_tag, map_eraseDs_map_tag,
    map_eraseDs_map_tag, map_eraseDs_map_tag]
  exact List.perm_append_comm

theorem headsOf_take_one {α : Type} (raw : List (List (List (Entry α)))) :
    headsOf (raw.map (fun c => c.take 1)) = headsOf raw := by
  induction raw with
  | nil => rfl
  | cons c rest ih =>
      have hh : (c.take 1).head? = c.head? := by cases c <;> rfl
      simp only [List.map_cons, headsOf]
      rw [hh, ih]

theorem headsOf_of_ne_nil {α : Type} (raw : List (List (List (Entry α))))
    (h : ∀ c ∈ raw, c ≠ []) :
    headsOf raw = some (raw.map (fun c => c.headD [])) := by
  induction raw with
  | nil => rfl
  | cons c rest ih =>
      cases c with
      | nil => exact absurd rfl (h [] (List.mem_cons_self _ _))
      | cons d c' =>
          simp only [headsOf, List.map_cons]
          rw [ih (fun x hx => h x (List.mem_cons_of_mem _ hx))]
          rfl

theorem headsOf_none {α : Type} (raw : List (List (List (Entry α))))
    (h : ∃ c ∈ raw, c = []) : headsOf raw = none := by
  induction raw with
  | nil => simp at h
  | cons c rest ih =>
      obtain ⟨c₀, hmem, rfl⟩ := h
      rcases List.mem_cons.1 hmem with h' | h'
      · subst h'
        rfl
      · have hr := ih ⟨[], h', rfl⟩
        simp only [headsOf, hr]
        cases c.head? <;> rfl

/-- C10: `_mergeResults` reads only component 0 of each series container —
replacing every container by its first component alone leaves the result
unchanged; when every container is non-empty the merge succeeds on the list
of first components; a container without a component 0 makes the call fail
(`IndexError` on `resultsSeries[0]`). -/
theorem mergeResults_reads_first_component {α : Type}
    (raw : List (List (List (Entry α)))) :
    mergeResults (raw.map (fun c => c.take 1)) = mergeResults raw ∧
    ((∀ c ∈ raw, c ≠ []) →
      mergeResults raw = some (mergeResultsData (raw.map (fun c => c.headD [])))) ∧
    ((∃ c ∈ raw, c = []) → mergeResults raw = none) := by
  refine ⟨?_, ?_, ?_⟩
  · rw [mergeResults, mergeResults, headsOf_take_one]
  · intro h
    rw [mergeResults, headsOf_of_ne_nil raw h, Option.map_some']
  · intro h
    rw [mergeResults, headsOf_none raw h, Option.map_none']

/-- Witness for C10: a container with an extra (ignored) second component,
and a failing call on an empty container. -/
theorem mergeResults_reads_first_component_witness :
    mergeResults ([[[⟨1, 0, none⟩], [⟨5, 0, none⟩]]] : List (List (List (Entry Int)))) =
      some (mergeResultsData [[⟨1, 0, none⟩]]) ∧
    mergeResults ([[]] : List (List (List (Entry Int)))) = none := by
  constructor
  · exact (mergeResults_reads_first_component
      ([[[⟨1, 0, none⟩], [⟨5, 0, none⟩]]] : List (List (List (Entry Int))))).2.1
      (by decide)
  · exact (mergeResults_reads_first_component
      ([[]] : List (List (List (Entry Int))))).2.2 ⟨[], List.mem_cons_self _ _, rfl⟩

/-! ## Lemmas about the metrics record -/

theorem odLookup_insert_self (m : List (String × NumberMetricsField)) (k : String)
    (v : NumberMetricsField) : odLookup (odInsert m k v) k = some v := by
  induction m with
  | nil => simp [odInsert, odLookup]
  | cons hd rest ih =>
      obtain ⟨k', v'⟩ := hd
      by_cases h : k' = k
      · simp [odInsert, odLookup, h]
      · simp [odInsert, odLookup, h, ih]

theorem odLookup_insert_ne (m : List (String × NumberMetricsField)) {k k' : String}
    (h : k' ≠ k) (v : NumberMetricsField) :
    odLookup (odInsert m k v) k' = odLookup m k' := by
  induction m with
  | nil => simp [odInsert, odLookup, Ne.symm h]
  | cons hd rest ih =>
      obtain ⟨k₀, v₀⟩ := hd
      by_cases h₀ : k₀ = k
      · subst h₀
        have hne : k₀ ≠ k' := fun hh => h hh.symm
        simp [odInsert, odLookup, hne, ih]
      · by_cases h₁ : k₀ = k' <;> simp [odInsert, odLookup, h₀, h₁, ih, h]

theorem odInsert_keys_mem {m : List (String × NumberMetricsField)} {k : String}
    (v : NumberMetricsField) (h : k ∈ m.map Prod.fst) :
    (odInsert m k v).map Prod.fst = m.map Prod.fst := by
  induction m with
  | nil => simp at h
  | cons hd rest ih =>
      obtain ⟨k₀, v₀⟩ := hd
      by_cases h₀ : k₀ = k
      · simp [odInsert, h₀]
      · have ht : k ∈ rest.map Prod.fst := by
          rcases List.mem_cons.1 h with h' | h'
          · exact absurd h'.symm h₀
          · exact h'
        simp [odInsert, h₀, ih ht]

theorem odInsert_keys_not_mem {m : List (String × NumberMetricsField)} {k : String}
    (v : NumberMetricsField) (h : k ∉ m.map Prod.fst) :
    (odInsert m k v).map Prod.fst = m.map Prod.fst ++ [k] := by
  induction m with
  | nil => simp [odInsert]
  | cons hd rest ih =>
      obtain ⟨k₀, v₀⟩ := hd
      have h₀ : k₀ ≠ k := fun hh => h (by simp [hh])
      have ht : k ∉ rest.map Prod.fst := fun hh => h (by simp [hh])
      simp [odInsert, h₀, ih ht]

theorem mrInit_concat (fs : List NumberMetricsField) (f : NumberMetricsField) :
    mrInit (fs ++ [f]) = odInsert (mrInit fs) f.key f := by
  rw [mrInit, List.foldl_append]
  rfl

theorem mrInit_lookup (fields : List NumberMetricsField) (k : String) :
    odLookup (mrInit fields) k = lastWithKey fields k := by
  induction fields using List.reverseRecOn with
  | nil => rfl
  | append_singleton fs f ih =>
      rw [mrInit_concat, lastWithKey, List.filter_append]
      by_cases h : f.key = k
      · have hf : List.filter (fun f => decide (f.key = k)) [f] = [f] := by simp [h]
        rw [hf, List.getLast?_concat, h, odLookup_insert_self]
      · have hf : List.filter (fun f => decide (f.key = k)) [f] = [] := by simp [h]
        rw [hf, List.append_nil, odLookup_insert_ne _ (fun hh => h hh.symm), ih]
        rfl

theorem foldl_odInsert_keys (fields : List NumberMetricsField) :
    ∀ m : List (String × NumberMetricsField),
      (fields.foldl (fun acc f => odInsert acc f.key f) m).map Prod.fst =
        (fields.map NumberMetricsField.key).foldl
          (fun acc k => if k ∈ acc then acc else acc ++ [k]) (m.map Prod.fst) := by
  induction fields with
  | nil => intro m; rfl
  | cons f fs ih =>
      intro m
      rw [List.foldl_cons, List.map_cons, List.foldl_cons, ih]
      congr 1
      by_cases h : f.key ∈ m.map Prod.fst
      · rw [odInsert_keys_mem f h, if_pos h]
      · rw [odInsert_keys_not_mem f h, if_neg h]

theorem mrInit_keys (fields : List NumberMetricsField) :
    (mrInit fields).map Prod.fst = firstKeys (fields.map NumberMetricsField.key) :=
  foldl_odInsert_keys fields []

theorem foldl_distinct_nodup (ks : List String) :
    ∀ acc : List String, acc.Nodup →
      (ks.foldl (fun acc k => if k ∈ acc then acc else acc ++ [k]) acc).Nodup := by
  induction ks with
  | nil => intro acc h; exact h
  | cons k ks' ih =>
      intro acc h
      rw [List.foldl_cons]
      by_cases hk : k ∈ acc
      · rw [if_pos hk]; exact ih acc h
      · rw [if_neg hk]; exact ih _ (by simp [List.nodup_append, h, hk])

theorem firstKeys_nodup (ks : List String) : (firstKeys ks).Nodup :=
  foldl_distinct_nodup ks [] List.nodup_nil

/-- C7 counterexample: with the duplicate-keyed field list
`[{key:"a", desc:"first", 0}, {key:"a", desc:"second", 1}]`, iterating the
record for reporting yields a single line (the shadowing field only) — it
does NOT reflect all insertions including shadowed ones, as the claim
asserts. -/
theorem metricsRecord_iteration_counterexample :
    printLines (mrInit [⟨"a", "first", 0⟩, ⟨"a", "second", 1⟩]) = ["second: 1"] ∧
    ¬ (printLines (mrInit [⟨"a", "first", 0⟩, ⟨"a", "second", 1⟩])).length =
      ([⟨"a", "first", 0⟩, ⟨"a", "second", 1⟩] : List NumberMetricsField).length := by
  decide

/-- C7 (amended): with duplicate keys, the last field with a given key wins in
the internal keyed mapping (lookup returns the last-inserted field for each
key), while iteration runs over one entry per distinct key, in the original
first-insertion order of the keys; shadowed insertions do not appear as
separate iteration entries. -/
theorem metricsRecord_dup_keys_spec (fields : List NumberMetricsField) :
    (∀ k, odLookup (mrInit fields) k = lastWithKey fields k) ∧
    (mrInit fields).map Prod.fst = firstKeys (fields.map NumberMetricsField.key) ∧
    ((mrInit fields).map Prod.fst).Nodup ∧
    (printLines (mrInit fields)).length =
      (firstKeys (fields.map NumberMetricsField.key)).length := by
  refine ⟨fun k => mrInit_lookup fields k, mrInit_keys fields, ?_, ?_⟩
  · rw [mrInit_keys]
    exact firstKeys_nodup _
  · rw [← mrInit_keys]
    simp [printLines]

theorem recordMetrics_cons (m : List (String × NumberMetricsField))
    (p : String × Int) (rest : List (String × Int)) :
    recordMetrics m (p :: rest) =
      recordMetrics
        (if p.1 ∈ m.map Prod.fst then odUpdate m p.1 (fun f => f.add p.2) else m)
        rest := rfl

theorem odUpdate_cons (k₀ : String) (v₀ : NumberMetricsField)
    (rest : List (String × NumberMetricsField)) (k : String)
    (g : NumberMetricsField → NumberMetricsField) :
    odUpdate ((k₀, v₀) :: rest) k g =
      (if k₀ = k then (k₀, g v₀) else (k₀, v₀)) :: odUpdate rest k g := by
  rw [odUpdate, List.map_cons, ← odUpdate]

theorem odLookup_odUpdate_self (m : List (String × NumberMetricsField)) (k : String)
    (g : NumberMetricsField → NumberMetricsField) :
    odLookup (odUpdate m k g) k = (odLookup m k).map g := by
  induction m with
  | nil => rfl
  | cons hd rest ih =>
      obtain ⟨k₀, v₀⟩ := hd
      rw [odUpdate_cons]
      by_cases h : k₀ = k
      · rw [if_pos h]
        simp [odLookup, h]
      · rw [if_neg h]
        simp [odLookup, h, ih]

theorem odLookup_odUpdate_ne (m : List (String × NumberMetricsField))
    {k k' : String} (h : k' ≠ k) (g : NumberMetricsField → NumberMetricsField) :
    odLookup (odUpdate m k g) k' = odLookup m k' := by
  induction m with
  | nil => rfl
  | cons hd rest ih =>
      obtain ⟨k₀, v₀⟩ := hd
      rw [odUpdate_cons]
      by_cases h₀ : k₀ = k
      · rw [if_pos h₀]
        have hne : ¬ k₀ = k' := fun hh => h (hh.symm.trans h₀)
        simp [odLookup, hne, ih]
      · rw [if_neg h₀]
        by_cases h₁ : k₀ = k' <;> simp [odLookup, h₁, ih]

theorem odUpdate_keys (m : List (String × NumberMetricsField)) (k : String)
    (g : NumberMetricsField → NumberMetricsField) :
    (odUpdate m k g).map Prod.fst = m.map Prod.fst := by
  rw [odUpdate, List.map_map]
  apply List.map_congr_left
  intro kv _
  by_cases h : kv.1 = k <;> simp [Function.comp, h]

theorem odLookup_not_mem {m : List (String × NumberMetricsField)} {k : String}
    (h : k ∉ m.map Prod.fst) : odLookup m k = none := by
  induction m with
  | nil => rfl
  | cons hd rest ih =>
      obtain ⟨k₀, v₀⟩ := hd
      have h₀ : k₀ ≠ k := fun hh => h (by simp [hh])
      have hr : k ∉ rest.map Prod.fst := fun hh => h (by simp [hh])
      simp [odLookup, h₀, ih hr]

theorem recordMetrics_keys (kwargs : List (String × Int)) :
    ∀ m : List (String × NumberMetricsField),
      (recordMetrics m kwargs).map Prod.fst = m.map Prod.fst := by
  induction kwargs with
  | nil => intro m; rfl
  | cons p rest ih =>
      intro m
      rw [recordMetrics_cons]
      by_cases h : p.1 ∈ m.map Prod.fst
      · rw [if_pos h, ih, odUpdate_keys]
      · rw [if_neg h, ih]

theorem odLookup_recordMetrics (kwargs : List (String × Int)) :
    ∀ (m : List (String × NumberMetricsField)) (k : String),
      odLookup (recordMetrics m kwargs) k =
        (odLookup m k).map
          (fun f => (kwargs.filter (fun p => decide (p.1 = k))).foldl
            (fun g p => g.add p.2) f) := by
  induction kwargs with
  | nil =>
      intro m k
      have hm : recordMetrics m [] = m := rfl
      rw [hm]
      cases odLookup m k <;> rfl
  | cons p rest ih =>
      intro m k
      obtain ⟨k₀, n⟩ := p
      rw [recordMetrics_cons]
      by_cases hmem : k₀ ∈ m.map Prod.fst
      · rw [if_pos hmem, ih]
        by_cases hk : k₀ = k
        · subst hk
          rw [odLookup_odUpdate_self]
          have hf : List.filter (fun p => decide (p.1 = k₀)) ((k₀, n) :: rest) =
              (k₀, n) :: List.filter (fun p => decide (p.1 = k₀)) rest := by simp
          rw [hf]
          cases odLookup m k₀ <;> simp
        · have hne : k ≠ k₀ := fun hh => hk hh.symm
          rw [odLookup_odUpdate_ne _ hne]
          have hf : List.filter (fun p => decide (p.1 = k)) ((k₀, n) :: rest) =
              List.filter (fun p => decide (p.1 = k)) rest := by simp [hk]
          rw [hf]
      · rw [if_neg hmem, ih]
        by_cases hk : k₀ = k
        · subst hk
          rw [odLookup_not_mem hmem]
          rfl
        · have hf : List.filter (fun p => decide (p.1 = k)) ((k₀, n) :: rest) =
              List.filter (fun p => decide (p.1 = k)) rest := by simp [hk]
          rw [hf]

/-- C8: `record_metrics` applies `add` exactly to the fields whose key
matches a provided name (folding all matching amounts into them), preserves
the record's key set, never fails, and ignores unknown names — leaving
non-matching fields unchanged.  Includes the spec's example: with fields
`a = 0`, `b = 0`, recording `a = 5, c = 10` leaves `a` at 5, `b` at 0, and
silently ignores `c`. -/
theorem recordMetrics_spec (m : List (String × NumberMetricsField))
    (kwargs : List (String × Int)) :
    (∀ k, odLookup (recordMetrics m kwargs) k =
      (odLookup m k).map
        (fun f => (kwargs.filter (fun p => decide (p.1 = k))).foldl
          (fun g p => g.add p.2) f)) ∧
    (recordMetrics m kwargs).map Prod.fst = m.map Prod.fst ∧
    recordMetrics (mrInit [⟨"a", "field a", 0⟩, ⟨"b", "field b", 0⟩])
        [("a", 5), ("c", 10)] =
      mrInit [⟨"a", "field a", 5⟩, ⟨"b", "field b", 0⟩] :=
  ⟨fun k => odLookup_recordMetrics kwargs m k, recordMetrics_keys kwargs m, by decide⟩

end Nexus








